import Mathlib

/-!
Verification of the natural-language specification of the `mlens_dev`
randomized-search / stacking core against a shallow embedding of its code.

The embedding covers:

* `Evaluator._draw_params`, `Evaluator._param_sets`, `Evaluator._results`,
  `Evaluator.preprocess` and `Evaluator.evaluate`
  (from `mlens/model_selection/model_selection.py`);
* the Layer / LayerContainer fitting engine, modelled from the specification
  (its implementation is exercised only through tests in the sources).

Scores and sampled parameter values are embedded as rationals (the code uses
IEEE floats; every claim treated here is about selection, ordering, structure
and data flow, not about rounding).  External collaborators (distributions,
estimators, transform steps, the parallel fold preprocessor and cross
validator) are modelled as function parameters, exactly as the specification
declares them: capabilities, not reimplemented components.
-/

namespace MLens

/-- One parameter dictionary: insertion-ordered association list from
hyperparameter name to a sampled value (a Python `dict` whose keys are the
declared hyperparameters). -/
abbrev PDict := List (String × ℚ)

/-- External distribution capability together with the global random state.
`rvs d n seed g = (values, g')` models `dist.rvs(n, random_state=seed)`:
it returns the drawn values and the global RNG state after the call.  When
`seed = some s` the call constructs its own `RandomState(s)`, so a faithful
sampler ignores and preserves `g`; when `seed = none` the draw consumes the
global state `g`. -/
abbrev Sampler (D : Type) := D → Nat → Option Nat → Nat → List ℚ × Nat

/-- The inner assignment loop of `_draw_params`:
`for i, draw in enumerate(draws): param_draws[i][param] = draw`.
It walks the dictionaries and the drawn values in lock step; when the draws
run out the remaining dictionaries are left untouched. -/
def assignGo (p : String) : List ℚ → List PDict → List PDict
  | _, [] => []
  | [], dicts => dicts
  | v :: vs, d :: ds => (d ++ [(p, v)]) :: assignGo p vs ds

/-- The assignment loop including its failure mode: when the distribution
returns more draws than there are dictionaries, `param_draws[i]` is an
out-of-range list index and Python raises `IndexError`. -/
def assignParam (p : String) (draws : List ℚ) (dicts : List PDict) :
    Except String (List PDict) :=
  if dicts.length < draws.length then
    .error "IndexError: list assignment index out of range"
  else
    .ok (assignGo p draws dicts)

/-- Loop body of `_draw_params`: one `dist.rvs(n_iter, random_state=...)` call
per declared hyperparameter, in declaration order, each threading the global
RNG state. -/
def drawParamsGo {D : Type} (rvs : Sampler D) (seed : Option Nat) (n : Nat) :
    List (String × D) → List PDict × Nat → Except String (List PDict × Nat)
  | [], st => .ok st
  | (p, d) :: rest, (dicts, g) =>
    let r := rvs d n seed g
    match assignParam p r.1 dicts with
    | .error e => .error e
    | .ok dicts2 => drawParamsGo rvs seed n rest (dicts2, r.2)

/-- Embedding of `Evaluator._draw_params`: start from `n_iter` empty
dictionaries and fill them hyperparameter by hyperparameter. -/
def draw_params {D : Type} (rvs : Sampler D) (seed : Option Nat) (n : Nat)
    (dists : List (String × D)) (g : Nat) : Except String (List PDict × Nat) :=
  drawParamsGo rvs seed n dists (List.replicate n [], g)

/-- The sequence view of the same loop: the list of per-hyperparameter drawn
value sequences, in declaration order, with the threaded global state.  This
records which `rvs` call produced which sequence. -/
def drawSeqs {D : Type} (rvs : Sampler D) (seed : Option Nat) (n : Nat) :
    List (String × D) → Nat → List (String × List ℚ) × Nat
  | [], g => ([], g)
  | (p, d) :: rest, g =>
    let r := rvs d n seed g
    let t := drawSeqs rvs seed n rest r.2
    ((p, r.1) :: t.1, t.2)

/-- Python `dict` assignment `m[k] = v`: overwrite in place when the key is
present, append otherwise. -/
def dictSet {K V : Type} [BEq K] (m : List (K × V)) (k : K) (v : V) :
    List (K × V) :=
  if m.any (fun e => e.1 == k) then
    m.map (fun e => if e.1 == k then (k, v) else e)
  else m ++ [(k, v)]

/-- The `param_map` loop of `_param_sets`: for every estimator, every draw and
every preprocessing case, `param_map[(est + "-" + case, draw + 1)] = params`.
The loop header `for case in self.preprocessing.keys()` evaluates
`None.keys()` when `preprocessing` is `None`, raising `AttributeError` as soon
as one (estimator, draw) iteration is reached. -/
def paramMapGo (prep : Option (List String)) (est : String) :
    Nat → List PDict → List ((String × Nat) × PDict) →
    Except String (List ((String × Nat) × PDict))
  | _, [], acc => .ok acc
  | draw, ps :: rest, acc =>
    match prep with
    | none => .error "AttributeError: NoneType object has no attribute keys"
    | some cases =>
      let acc2 := cases.foldl
        (fun m c => dictSet m (est ++ "-" ++ c, draw + 1) ps) acc
      paramMapGo prep est (draw + 1) rest acc2

/-- Outer loops of the `param_map` construction, over the estimators of
`param_sets` in order. -/
def paramMapOf (prep : Option (List String)) :
    List (String × List PDict) → List ((String × Nat) × PDict) →
    Except String (List ((String × Nat) × PDict))
  | [], acc => .ok acc
  | (est, dicts) :: rest, acc =>
    match paramMapGo prep est 0 dicts acc with
    | .error e => .error e
    | .ok acc2 => paramMapOf prep rest acc2

/-- First loop of `_param_sets`:
`param_sets[est_name] = self._draw_params(est_name)` for every estimator, in
order.  `self.param_dicts_[est_name]` is a Python dict lookup, so a missing
estimator raises `KeyError`. -/
def paramSetsGo {D : Type} (rvs : Sampler D) (seed : Option Nat) (n : Nat)
    (pdicts : List (String × List (String × D))) :
    List String → Nat → Except String (List (String × List PDict) × Nat)
  | [], g => .ok ([], g)
  | est :: rest, g =>
    match pdicts.lookup est with
    | none => .error "KeyError"
    | some dists =>
      match draw_params rvs seed n dists g with
      | .error e => .error e
      | .ok (dicts, g2) =>
        match paramSetsGo rvs seed n pdicts rest g2 with
        | .error e => .error e
        | .ok (tail, g3) => .ok ((est, dicts) :: tail, g3)

/-- Embedding of `Evaluator._param_sets`: draw the per-estimator parameter
dictionaries, then flatten them into the `(estimator-case, draw)`-keyed
`param_map`. -/
def param_sets {D : Type} (rvs : Sampler D) (seed : Option Nat) (n : Nat)
    (ests : List String) (pdicts : List (String × List (String × D)))
    (prep : Option (List String)) (g : Nat) :
    Except String ((List (String × List PDict)) ×
      (List ((String × Nat) × PDict)) × Nat) :=
  match paramSetsGo rvs seed n pdicts ests g with
  | .error e => .error e
  | .ok (psets, g2) =>
    match paramMapOf prep psets [] with
    | .error e => .error e
    | .ok pmap => .ok (psets, pmap, g2)

/-- One row of the flat cross-validation output `out`, with the columns the
code names `['estimator', 'test_score', 'train_score', 'time', 'param_draw',
'params']`.  `est` is the combined estimator-case key.  The non-numeric
`params` column is dropped by the `groupby(...).agg(['mean', 'std'])` step
(pandas discards nuisance columns) and re-attached from `param_map`, so it is
not carried in the record. -/
structure RRecord where
  est : String
  test : ℚ
  train : ℚ
  time : ℚ
  draw : Nat
deriving DecidableEq

/-- Mean of a list of rationals (`sum / len`; junk value 0 on the empty list,
which never arises for a `groupby` group). -/
def qmean (l : List ℚ) : ℚ := l.sum / l.length

/-- Sample variance with `ddof = 1`, the square of the standard deviation that
`agg(['mean', 'std'])` reports.  The square root of a rational is not
rational, so the embedding carries the variance; the claims treated here never
inspect the std value itself.  For singleton groups pandas yields NaN where
division by zero yields 0 here. -/
def qvar (l : List ℚ) : ℚ :=
  (l.map fun x => (x - qmean l) ^ 2).sum / ((l.length : ℚ) - 1)

/-- One aggregated row of `cv_results_`: mean and (squared) std of test score,
train score and fit time over the records of one `(estimator, param_draw)`
group. -/
structure AggRow where
  test_mean : ℚ
  test_var : ℚ
  train_mean : ℚ
  train_var : ℚ
  time_mean : ℚ
  time_var : ℚ
deriving DecidableEq

/-- Aggregate one group of records. -/
def aggOf (g : List RRecord) : AggRow where
  test_mean := qmean (g.map (·.test))
  test_var := qvar (g.map (·.test))
  train_mean := qmean (g.map (·.train))
  train_var := qvar (g.map (·.train))
  time_mean := qmean (g.map (·.time))
  time_var := qvar (g.map (·.time))

/-- Lexicographic order on `(estimator, param_draw)` keys: the order in which
`groupby(['estimator', 'param_draw'])` (with its default `sort=True`) lays out
the groups. -/
def keyLE (a b : String × Nat) : Prop :=
  a.1 < b.1 ∨ (a.1 = b.1 ∧ a.2 ≤ b.2)

instance : DecidableRel keyLE := fun a b => by
  unfold keyLE; infer_instance

instance : IsTotal (String × Nat) keyLE where
  total a b := by
    rcases lt_trichotomy a.1 b.1 with h | h | h
    · exact Or.inl (Or.inl h)
    · rcases Nat.le_total a.2 b.2 with h2 | h2
      · exact Or.inl (Or.inr ⟨h, h2⟩)
      · exact Or.inr (Or.inr ⟨h.symm, h2⟩)
    · exact Or.inr (Or.inl h)

instance : IsTrans (String × Nat) keyLE where
  trans a b c hab hbc := by
    rcases hab with h1 | ⟨e1, l1⟩
    · rcases hbc with h2 | ⟨e2, _⟩
      · exact Or.inl (h1.trans h2)
      · exact Or.inl (e2 ▸ h1)
    · rcases hbc with h2 | ⟨e2, l2⟩
      · exact Or.inl (e1 ▸ h2)
      · exact Or.inr ⟨e1.trans e2, l1.trans l2⟩

/-- Group keys of `out.groupby(['estimator', 'param_draw'])`: the distinct
`(estimator, param_draw)` pairs of the records, in sorted order. -/
def groupKeys (out : List RRecord) : List (String × Nat) :=
  ((out.map fun r => (r.est, r.draw)).dedup).insertionSort keyLE

/-- The records of one group. -/
def groupOf (out : List RRecord) (k : String × Nat) : List RRecord :=
  out.filter fun r => (r.est, r.draw) = k

/-- Embedding of `cv_results_` (without the re-attached `params` column): one
aggregated row per `(estimator, param_draw)` group, keys in sorted order. -/
def cv_results (out : List RRecord) : List ((String × Nat) × AggRow) :=
  (groupKeys out).map fun k => (k, aggOf (groupOf out k))

/-- First maximum of `test_score_mean` in a row list: the element returned by
`np.argmax` / `Series.idxmax` applied to the group, which keeps the earliest
row on ties.  Scanning keeps the current champion and replaces it only on a
strictly greater value. -/
def firstMax : List ((String × Nat) × AggRow) →
    Option ((String × Nat) × AggRow)
  | [] => none
  | x :: xs =>
    match firstMax xs with
    | none => some x
    | some y => if x.2.test_mean < y.2.test_mean then some y else some x

/-- Distinct estimator keys in sorted order: the groups of
`groupby(level=0)` on `cv_results_`. -/
def estNames (out : List RRecord) : List String :=
  ((out.map (·.est)).dedup).insertionSort (fun a b => a ≤ b)

/-- The rows `cv_results_.loc[best_idx]`: for each estimator, the row of its
level-0 group selected by `np.argmax` of `test_score_mean` (the first row
attaining the maximum, in the sorted draw order of the group). -/
def bestRows (out : List RRecord) : List ((String × Nat) × AggRow) :=
  (estNames out).filterMap fun e =>
    firstMax ((cv_results out).filter fun r => r.1.1 = e)

/-- Descending order on `test_score_mean`, the sort key of
`summary.sort_values(by='test_score_mean', ascending=False)`. -/
def descTM (a b : String × AggRow) : Prop :=
  b.2.test_mean ≤ a.2.test_mean

instance : DecidableRel descTM := fun a b => by
  unfold descTM; infer_instance

instance : IsTotal (String × AggRow) descTM where
  total a b := (le_total b.2.test_mean a.2.test_mean).imp id id

instance : IsTrans (String × AggRow) descTM where
  trans _ _ _ hab hbc := hbc.trans hab

/-- Embedding of the `summary_` table of `_results`: the selected best rows
with the draw level dropped (`reset_index(1, drop=True)`), sorted by mean test
score in descending order. -/
def summaryOf (out : List RRecord) : List (String × AggRow) :=
  ((bestRows out).map fun r => (r.1.1, r.2)).insertionSort descTM

/-- Mutable state of an `Evaluator` instance for the caching claims: the
cached fold table `dout` (`none` models the attribute being absent, as after
`del self.dout`), the global RNG state, and a ghost counter of how many times
`preprocess` has run (it is not source data; it only records invocations so
that re-running versus reuse is observable in the embedding). -/
structure EvalState (T : Type) where
  dout : Option T
  g : Nat
  prepCount : Nat
deriving DecidableEq

/-- Embedding of `Evaluator.preprocess`: recompute the fold table from the
data via the external `preprocess_folds` collaborator `pf` and store it in
`self.dout`. -/
def preprocessM {T X : Type} (pf : X → X → T) (st : EvalState T)
    (x y : X) : EvalState T :=
  { st with dout := some (pf x y), prepCount := st.prepCount + 1 }

/-- Value returned by `evaluate`: the `(cv_results_, summary_)` pair built by
`_results` from the cross-validation records and the parameter map. -/
def resultsOf (out : List RRecord) (pmap : List ((String × Nat) × PDict)) :
    (List ((String × Nat) × AggRow × Option PDict)) × List (String × AggRow) :=
  ((cv_results out).map fun r => (r.1, r.2, (pmap.reverse.lookup r.1)),
    summaryOf out)

/-- Embedding of `Evaluator.evaluate`.  The preprocessing pipeline `pf` and
the parallel cross validator `cvf` are external collaborators passed as
functions.  Control flow of the source, in order: re-run `preprocess` when no
fold table is cached or `reset_preprocess` is set; build the parameter sets
and the parameter map (`_param_sets`); cross-validate over the cached fold
table; reduce via `_results`; drop the cached table when `flush_preprocess`
is set. -/
def evaluateM {D T X : Type} (rvs : Sampler D) (seed : Option Nat)
    (pf : X → X → T) (cvf : T → List (String × List PDict) → List RRecord)
    (ests : List String) (pdicts : List (String × List (String × D)))
    (prep : Option (List String)) (nIter : Nat)
    (st : EvalState T) (x y : X) (reset flush : Bool) :
    Except String
      (((List ((String × Nat) × AggRow × Option PDict)) ×
        List (String × AggRow)) × EvalState T) :=
  let st1 := if st.dout.isNone || reset then preprocessM pf st x y else st
  match param_sets rvs seed nIter ests pdicts prep st1.g with
  | .error e => .error e
  | .ok (psets, pmap, g2) =>
    match st1.dout with
    | none => .error "AttributeError: dout"
    | some t =>
      let res := resultsOf (cvf t psets) pmap
      let st2 := { st1 with g := g2 }
      .ok (res, if flush then { st2 with dout := none } else st2)

/-- Modelled from the spec: the fold indexer of section 4.1
(`preprocess_folds` and the indexer classes are not among the sources; only
the `Evaluator`, which forwards `cv`, `shuffle` and `random_state` to them,
is).  `build(sample_count, fold_spec)` partitions `[0, sample_count)` into
`k` test blocks whose sizes differ by at most one, after permuting the
indices with the supplied seed when `shuffle` is set (the spec fixes no
particular permutation; a rotation determined by the seed stands in for it —
with `seed = none` the permutation is driven by the global RNG state `g`
instead).  Train partition of a fold is the complement of its test block.
Fails when `k < 2` or `k > sample_count` (`ConfigError`). -/
def foldPlan (nsamples k : Nat) (shuffle : Bool) (seed : Option Nat)
    (g : Nat) : Option (List (List Nat × List Nat)) :=
  if k < 2 ∨ nsamples < k then none
  else
    let idx := List.range nsamples
    let perm := if shuffle then idx.rotate ((seed.getD g) % nsamples) else idx
    some ((List.range k).map fun i =>
      let q := nsamples / k
      let r := nsamples % k
      let start := i * q + min i r
      let stop := (i + 1) * q + min (i + 1) r
      let test := (perm.drop start).take (stop - start)
      (perm.filter (fun j => decide (j ∉ test)), test))

/-- Row-major data matrix. -/
abbrev Mat := List (List ℚ)

/-- Label / prediction vector. -/
abbrev Vec := List ℚ

/-- The rows of `X` at the given sample indices (a fold partition slice). -/
def rowsAt (X : Mat) (idx : List Nat) : Mat := idx.map fun i => X.getD i []

/-- The labels at the given sample indices. -/
def valsAt (y : Vec) (idx : List Nat) : Vec := idx.map fun i => y.getD i 0

/-- Transform-step capability of the spec (external collaborator):
`fit(train) -> fitted_step` and `apply(X) -> X'`, the latter applied row by
row.  A whole transform chain of a preprocessing case is one composite
capability. -/
structure TCap (S : Type) where
  tfit : Mat → S
  tapp : S → Vec → Vec

/-- Estimator capability of the spec (external collaborator):
`fit(X, y) -> fitted` and `predict(X) -> y_hat`, predicting row by row. -/
structure ECap (M : Type) where
  efit : Mat → Vec → M
  epred : M → Vec → ℚ

/-- Modelled from the spec: the out-of-fold predictions of one
(case, estimator) pair over a fold plan (section 4.3 `Layer.fit`; the Layer
engine itself is not among the sources, only its tests are).  For each fold:
fit the case transform chain on the train partition, fit a fresh estimator
clone on the preprocessed train partition, predict the preprocessed test
partition; emit `(row_position, prediction)` pairs. -/
def oofPairs {S M : Type} (t : TCap S) (e : ECap M)
    (folds : List (List Nat × List Nat)) (X : Mat) (y : Vec) :
    List (Nat × ℚ) :=
  folds.flatMap fun fd =>
    let s := t.tfit (rowsAt X fd.1)
    let m := e.efit ((rowsAt X fd.1).map (t.tapp s)) (valsAt y fd.1)
    fd.2.map fun r => (r, e.epred m (t.tapp s (X.getD r [])))

/-- Scatter `(row, value)` pairs into a length-`n` column (the matrix is
allocated and then written at `test_row_positions`; unwritten rows keep the
fill value 0). -/
def scatter (n : Nat) (ps : List (Nat × ℚ)) : Vec :=
  (List.range n).map fun r => ((ps.lookup r).getD 0)

/-- Modelled from the spec: the assembled out-of-fold prediction matrix of a
Layer — one column per (case, estimator) pair, cases outermost, in
declaration order. -/
def layerFitMatrix {S M : Type} (cases : List (String × TCap S))
    (ests : List (String × ECap M)) (folds : List (List Nat × List Nat))
    (X : Mat) (y : Vec) : Mat :=
  let cols := cases.flatMap fun c =>
    ests.map fun e => scatter X.length (oofPairs c.2 e.2 folds X y)
  (List.range X.length).map fun r => cols.map fun col => col.getD r 0

/-- One production-fitted (case, estimator) pair: the transform state fitted
on the full data and the estimator fitted on the fully preprocessed data,
kept together with the capabilities that produced them. -/
structure FittedPair (S M : Type) where
  t : TCap S
  e : ECap M
  s : S
  m : M

/-- Modelled from the spec: `Layer.fit` (section 4.3) — the out-of-fold
prediction matrix together with the production instances, one per
(case, estimator) pair, each fitted on the entire preprocessed case data. -/
def layerFit {S M : Type} (cases : List (String × TCap S))
    (ests : List (String × ECap M)) (folds : List (List Nat × List Nat))
    (X : Mat) (y : Vec) : Mat × List (FittedPair S M) :=
  (layerFitMatrix cases ests folds X y,
    cases.flatMap fun c =>
      let s := c.2.tfit X
      ests.map fun e => ⟨c.2, e.2, s, e.2.efit (X.map (c.2.tapp s)) y⟩)

/-- Modelled from the spec: `Layer.predict` (section 4.3) — apply each case
production transform chain and production estimator to every row of the new
input, columns in the fit-time (case, estimator) order, no fold logic. -/
def layerPredict {S M : Type} (fitted : List (FittedPair S M))
    (Xnew : Mat) : Mat :=
  Xnew.map fun row => fitted.map fun p => p.e.epred p.m (p.t.tapp p.s row)

/-- Reference out-of-fold matrix, computed independently of the layer engine
(row-lookup style, as the ground-truth computation of the tests): entry
`(r, pair)` is found by locating the fold whose test partition holds `r`,
manually fitting on that fold train partition and predicting row `r`. -/
def refEntry {S M : Type} (t : TCap S) (e : ECap M)
    (folds : List (List Nat × List Nat)) (X : Mat) (y : Vec) (r : Nat) : ℚ :=
  match folds.find? (fun fd => decide (r ∈ fd.2)) with
  | none => 0
  | some fd =>
    let s := t.tfit (rowsAt X fd.1)
    let m := e.efit ((rowsAt X fd.1).map (t.tapp s)) (valsAt y fd.1)
    e.epred m (t.tapp s (X.getD r []))

/-- Reference matrix assembled entrywise from `refEntry`. -/
def refMatrix {S M : Type} (cases : List (String × TCap S))
    (ests : List (String × ECap M)) (folds : List (List Nat × List Nat))
    (X : Mat) (y : Vec) : Mat :=
  (List.range X.length).map fun r =>
    cases.flatMap fun c => ests.map fun e => refEntry c.2 e.2 folds X y r

/-- Reference production prediction matrix, computed independently: for every
row of the new input and every (case, estimator) pair, fit the transform on
the full fit data, fit the estimator on the fully preprocessed fit data, and
predict the transformed row. -/
def prodRefMatrix {S M : Type} (cases : List (String × TCap S))
    (ests : List (String × ECap M)) (X : Mat) (y : Vec) (Xnew : Mat) : Mat :=
  Xnew.map fun row =>
    cases.flatMap fun c => ests.map fun e =>
      let s := c.2.tfit X
      e.2.epred (e.2.efit (X.map (c.2.tapp s)) y) (c.2.tapp s row)

/-- One layer of a container: its cases and estimators. -/
structure LayerSpec (S M : Type) where
  cases : List (String × TCap S)
  ests : List (String × ECap M)

/-- Modelled from the spec: `LayerContainer.fit` (section 4.4) — the
out-of-fold prediction matrix of layer `i` is the input consumed by layer
`i + 1`; the container returns the last matrix and every layer fitted
state. -/
def lcFit {S M : Type} (layers : List (LayerSpec S M))
    (folds : List (List Nat × List Nat)) (X : Mat) (y : Vec) :
    Mat × List (List (FittedPair S M)) :=
  layers.foldl (fun acc ly =>
    let r := layerFit ly.cases ly.ests folds acc.1 y
    (r.1, acc.2 ++ [r.2])) (X, [])

/-- Modelled from the spec: `LayerContainer.predict` — identical chaining
through the layers, each using its production-fitted state, no fold
splitting. -/
def lcPredict {S M : Type} (fitted : List (List (FittedPair S M)))
    (Xnew : Mat) : Mat :=
  fitted.foldl (fun x fp => layerPredict fp x) Xnew

/-- Modelled from the spec: a container fit from a file path first
materializes the file into an in-memory array and proceeds identically
(section 4.4; the file adapter is not among the sources).  `store` maps a
path to the stored array. -/
def lcFitFile {S M : Type} (store : String → Mat) (storeY : String → Vec)
    (layers : List (LayerSpec S M)) (folds : List (List Nat × List Nat))
    (xPath yPath : String) : Mat × List (List (FittedPair S M)) :=
  lcFit layers folds (store xPath) (storeY yPath)

/-- Modelled from the spec: predicting from a file path materializes the file
and predicts on the in-memory array. -/
def lcPredictFile {S M : Type} (store : String → Mat)
    (fitted : List (List (FittedPair S M))) (xPath : String) : Mat :=
  lcPredict fitted (store xPath)

/-- The no-op transform step of the literal scenario: fitting learns nothing
and applying changes nothing. -/
def noopT : TCap Unit := ⟨fun _ => (), fun _ v => v⟩

/-- The train partitions of the literal scenario, row by row: rows 0 and 1
are predicted by a model trained on rows 2..5, rows 2 and 3 by one trained
on rows 0, 1, 4, 5, and rows 4 and 5 by one trained on rows 0..3. -/
def scenarioTrain (r : Nat) : List Nat :=
  [[2, 3, 4, 5], [2, 3, 4, 5], [0, 1, 4, 5],
   [0, 1, 4, 5], [0, 1, 2, 3], [0, 1, 2, 3]].getD r []

/-- The `i`-th parameter dictionary induced by per-hyperparameter drawn value
sequences: every declared hyperparameter, in declaration order, mapped to
position `i` of its own sequence. -/
def seqRow (seqs : List (String × List ℚ)) (i : Nat) : PDict :=
  seqs.map fun s => (s.1, s.2.getD i 0)

/-- The `param_map` entries contributed by one estimator, laid out in
insertion order: for each draw in order, one `(est-case, draw + 1)` key per
preprocessing case. -/
def pmapChunk (cases : List String) (est : String) :
    Nat → List PDict → List ((String × Nat) × PDict)
  | _, [] => []
  | draw, ps :: rest =>
    (cases.map fun c => ((est ++ "-" ++ c, draw + 1), ps)) ++
      pmapChunk cases est (draw + 1) rest

/-- The full `param_map` contents, estimator chunks in `param_sets` order. -/
def pmapFull (cases : List String) :
    List (String × List PDict) → List ((String × Nat) × PDict)
  | [] => []
  | (est, dicts) :: rest =>
    pmapChunk cases est 0 dicts ++ pmapFull cases rest

/-- Reference production predictions of a container, computed independently:
chain the per-layer production references, each layer production-fitted on
its fit-time input (the previous layer out-of-fold matrix). -/
def lcProdRef {S M : Type} (layers : List (LayerSpec S M))
    (folds : List (List Nat × List Nat)) (X : Mat) (y : Vec) (Xnew : Mat) :
    Mat :=
  (layers.foldl (fun acc ly =>
    (layerFitMatrix ly.cases ly.ests folds acc.1 y,
      prodRefMatrix ly.cases ly.ests acc.1 y acc.2)) (X, Xnew)).2

/-- Concrete distribution capability for witnesses and counterexamples:
distribution `d` draws value `d + i + s` at position `i` under seed `s`, and
consumes the global state when unseeded. -/
def rvsModel : Sampler Nat := fun d n seed g =>
  match seed with
  | some s => ((List.range n).map fun i => ((d + i + s : Nat) : ℚ), g)
  | none => ((List.range n).map fun i => ((d + i + g : Nat) : ℚ), g + 1)

theorem assignGo_length (p : String) :
    ∀ (vs : List ℚ) (ds : List PDict), (assignGo p vs ds).length = ds.length
  | _, [] => by simp [assignGo]
  | [], _ :: _ => by simp [assignGo]
  | v :: vs, d :: ds => by
    simp [assignGo, assignGo_length p vs ds]

theorem assignGo_getD (p : String) :
    ∀ (vs : List ℚ) (ds : List PDict) (i : Nat),
    vs.length = ds.length → i < ds.length →
    (assignGo p vs ds).getD i [] = ds.getD i [] ++ [(p, vs.getD i 0)]
  | _, [], i, _, hi => by simp at hi
  | [], _ :: _, i, hl, _ => by simp at hl
  | v :: vs, d :: ds, 0, _, _ => by simp [assignGo]
  | v :: vs, d :: ds, i + 1, hl, hi => by
    simpa [assignGo] using
      assignGo_getD p vs ds i (by simpa using hl) (by simpa using hi)

theorem drawParamsGo_spec {D : Type} (rvs : Sampler D) (seed : Option Nat)
    (n : Nat) (hlen : ∀ d m s g, ((rvs d m s g).1).length = m) :
    ∀ (dists : List (String × D)) (dicts : List PDict) (g : Nat),
    dicts.length = n →
    ∃ out, drawParamsGo rvs seed n dists (dicts, g) =
        .ok (out, (drawSeqs rvs seed n dists g).2) ∧
      out.length = n ∧
      ∀ i, i < n →
        out.getD i [] = dicts.getD i [] ++
          seqRow ((drawSeqs rvs seed n dists g).1) i
  | [], dicts, g, hd => by
    refine ⟨dicts, rfl, hd, fun i _ => ?_⟩
    simp [drawSeqs, seqRow]
  | (p, d) :: rest, dicts, g, hd => by
    have hr : ((rvs d n seed g).1).length = n := hlen d n seed g
    have hass : assignParam p (rvs d n seed g).1 dicts =
        .ok (assignGo p (rvs d n seed g).1 dicts) := by
      simp [assignParam, hr, hd]
    obtain ⟨out, hgo, hlen2, hget⟩ :=
      drawParamsGo_spec rvs seed n hlen rest
        (assignGo p (rvs d n seed g).1 dicts) (rvs d n seed g).2
        ((assignGo_length p _ _).trans hd)
    refine ⟨out, ?_, hlen2, fun i hi => ?_⟩
    · simp only [drawParamsGo, hass, drawSeqs]
      exact hgo
    · have := hget i hi
      rw [assignGo_getD p _ _ i (hr.trans hd.symm) (hd ▸ hi)] at this
      simp only [drawSeqs, seqRow, List.map_cons] at this ⊢
      simpa [List.append_assoc] using this

theorem draw_params_spec {D : Type} (rvs : Sampler D) (seed : Option Nat)
    (n : Nat) (hlen : ∀ d m s g, ((rvs d m s g).1).length = m)
    (dists : List (String × D)) (g : Nat) :
    ∃ out, draw_params rvs seed n dists g =
        .ok (out, (drawSeqs rvs seed n dists g).2) ∧
      out.length = n ∧
      ∀ i, i < n →
        out.getD i [] = seqRow ((drawSeqs rvs seed n dists g).1) i := by
  obtain ⟨out, hgo, hl, hget⟩ :=
    drawParamsGo_spec rvs seed n hlen dists (List.replicate n []) g
      (List.length_replicate n [])
  refine ⟨out, hgo, hl, fun i hi => ?_⟩
  have hrep : (List.replicate n ([] : PDict)).getD i [] = [] := by
    simp [List.getD_eq_getD_get?]
  have := hget i hi
  rwa [hrep, List.nil_append] at this

theorem drawSeqs_map_fst {D : Type} (rvs : Sampler D) (seed : Option Nat)
    (n : Nat) : ∀ (dists : List (String × D)) (g : Nat),
    ((drawSeqs rvs seed n dists g).1).map Prod.fst = dists.map Prod.fst
  | [], g => rfl
  | (p, d) :: rest, g => by
    simp [drawSeqs, drawSeqs_map_fst rvs seed n rest]

theorem drawSeqs_lengths {D : Type} (rvs : Sampler D) (seed : Option Nat)
    (n : Nat) (hlen : ∀ d m s g, ((rvs d m s g).1).length = m) :
    ∀ (dists : List (String × D)) (g : Nat),
    ∀ s ∈ (drawSeqs rvs seed n dists g).1, s.2.length = n
  | [], g => by simp [drawSeqs]
  | (p, d) :: rest, g => by
    intro s hs
    simp only [drawSeqs, List.mem_cons] at hs
    rcases hs with h | h
    · rw [h]; exact hlen d n seed g
    · exact drawSeqs_lengths rvs seed n hlen rest _ s h

theorem string_append_cancel_left {a b c : String} (h : a ++ b = a ++ c) :
    b = c := by
  have hd := congrArg String.data h
  simp only [String.data_append] at hd
  have h2 := List.append_cancel_left hd
  cases b; cases c; exact congrArg String.mk h2

theorem dictSet_fresh {K V : Type} [BEq K] [LawfulBEq K]
    (m : List (K × V)) (k : K) (v : V) (h : ∀ e ∈ m, e.1 ≠ k) :
    dictSet m k v = m ++ [(k, v)] := by
  unfold dictSet
  rw [if_neg]
  simp only [List.any_eq_true, beq_iff_eq, not_exists, not_and]
  exact h

theorem foldl_dictSet_fresh {V : Type} (v : V) (key : String → String × Nat) :
    ∀ (cs : List String) (acc : List ((String × Nat) × V)),
    (∀ c ∈ cs, ∀ e ∈ acc, e.1 ≠ key c) → (cs.map key).Nodup →
    cs.foldl (fun m c => dictSet m (key c) v) acc =
      acc ++ cs.map fun c => (key c, v)
  | [], acc, _, _ => by simp
  | c :: cs, acc, hfresh, hnd => by
    simp only [List.foldl_cons, List.map_cons]
    rw [dictSet_fresh acc (key c) v
      (fun e he => hfresh c (List.mem_cons_self c cs) e he)]
    rw [foldl_dictSet_fresh v key cs (acc ++ [(key c, v)]) ?_ ?_]
    · simp
    · intro c2 hc2 e he
      rcases List.mem_append.1 he with h | h
      · exact hfresh c2 (List.mem_cons_of_mem c hc2) e h
      · have he2 : e = (key c, v) := by simpa using h
        subst he2
        intro hk
        simp only at hk
        refine (List.nodup_cons.1 hnd).1 ?_
        rw [hk]
        exact List.mem_map_of_mem key hc2
    · exact (List.nodup_cons.1 hnd).2

theorem pmapChunk_mem (cases : List String) (est : String) :
    ∀ (draw : Nat) (dicts : List PDict) (kv : (String × Nat) × PDict),
    kv ∈ pmapChunk cases est draw dicts ↔
      ∃ c ∈ cases, ∃ j, j < dicts.length ∧
        kv = ((est ++ "-" ++ c, draw + 1 + j), dicts.getD j [])
  | draw, [], kv => by simp [pmapChunk]
  | draw, ps :: rest, kv => by
    simp only [pmapChunk, List.mem_append, List.mem_map,
      pmapChunk_mem cases est (draw + 1) rest]
    constructor
    · rintro (⟨c, hc, rfl⟩ | ⟨c, hc, j, hj, rfl⟩)
      · exact ⟨c, hc, 0, by simp, by simp⟩
      · refine ⟨c, hc, j + 1, by simpa using Nat.succ_lt_succ hj, ?_⟩
        have : draw + 1 + 1 + j = draw + 1 + (j + 1) := by omega
        rw [this]
        rfl
    · rintro ⟨c, hc, j, hj, rfl⟩
      match j with
      | 0 => exact Or.inl ⟨c, hc, by simp⟩
      | j + 1 =>
        refine Or.inr ⟨c, hc, j, by simpa using Nat.lt_of_succ_lt_succ hj, ?_⟩
        have : draw + 1 + 1 + j = draw + 1 + (j + 1) := by omega
        rw [this]
        rfl

theorem paramMapGo_eq (cases : List String) (est : String)
    (hcn : cases.Nodup) :
    ∀ (draw : Nat) (dicts : List PDict)
      (acc : List ((String × Nat) × PDict)),
    (∀ kv ∈ pmapChunk cases est draw dicts, ∀ e ∈ acc, e.1 ≠ kv.1) →
    paramMapGo (some cases) est draw dicts acc =
      .ok (acc ++ pmapChunk cases est draw dicts)
  | draw, [], acc, _ => by simp [paramMapGo, pmapChunk]
  | draw, ps :: rest, acc, hfresh => by
    simp only [paramMapGo]
    rw [foldl_dictSet_fresh ps (fun c => (est ++ "-" ++ c, draw + 1))
      cases acc ?_ ?_]
    · rw [paramMapGo_eq cases est hcn (draw + 1) rest _ ?_]
      · simp [pmapChunk, List.append_assoc]
      · intro kv hkv e he
        have hkv2 : kv ∈ pmapChunk cases est draw (ps :: rest) := by
          rw [pmapChunk_mem] at hkv ⊢
          obtain ⟨c, hc, j, hj, rfl⟩ := hkv
          refine ⟨c, hc, j + 1, by simpa using Nat.succ_lt_succ hj, ?_⟩
          have : draw + 1 + 1 + j = draw + 1 + (j + 1) := by omega
          rw [this]
          rfl
        rcases List.mem_append.1 he with h | h
        · exact hfresh kv hkv2 e h
        · obtain ⟨c2, hc2, he2⟩ := List.mem_map.1 h
          obtain ⟨c, hc, j, hj, rfl⟩ := (pmapChunk_mem _ _ _ _ _).1 hkv
          rw [← he2]
          intro hk
          simp only [Prod.mk.injEq] at hk
          exact absurd hk.2 (by omega)
    · intro c hc e he
      refine hfresh ((est ++ "-" ++ c, draw + 1), ps) ?_ e he
      rw [pmapChunk_mem]
      exact ⟨c, hc, 0, by simp, by simp⟩
    · refine List.Nodup.map_on ?_ hcn
      intro c1 h1 c2 h2 hk
      have := congrArg Prod.fst hk
      simp only at this
      exact string_append_cancel_left
        (show est ++ "-" ++ c1 = est ++ "-" ++ c2 by
          simpa [String.append_assoc] using this)

theorem pmapFull_mem (cases : List String) :
    ∀ (psets : List (String × List PDict)) (kv : (String × Nat) × PDict),
    kv ∈ pmapFull cases psets ↔
      ∃ pe ∈ psets, kv ∈ pmapChunk cases pe.1 0 pe.2
  | [], kv => by simp [pmapFull]
  | (est, dicts) :: rest, kv => by
    simp only [pmapFull, List.mem_append, pmapFull_mem cases rest,
      List.mem_cons]
    constructor
    · rintro (h | ⟨pe, hpe, h⟩)
      · exact ⟨(est, dicts), Or.inl rfl, h⟩
      · exact ⟨pe, Or.inr hpe, h⟩
    · rintro ⟨pe, hpe | hpe, h⟩
      · rw [hpe] at h
        exact Or.inl h
      · exact Or.inr ⟨pe, hpe, h⟩

theorem paramMapOf_eq (cases : List String) (hcn : cases.Nodup) :
    ∀ (psets : List (String × List PDict))
      (acc : List ((String × Nat) × PDict)),
    (∀ pe1 ∈ psets, ∀ pe2 ∈ psets, ∀ c1 ∈ cases, ∀ c2 ∈ cases,
      pe1.1 ++ "-" ++ c1 = pe2.1 ++ "-" ++ c2 → pe1.1 = pe2.1) →
    (psets.map Prod.fst).Nodup →
    (∀ kv ∈ pmapFull cases psets, ∀ e ∈ acc, e.1 ≠ kv.1) →
    paramMapOf (some cases) psets acc = .ok (acc ++ pmapFull cases psets)
  | [], acc, _, _, _ => by simp [paramMapOf, pmapFull]
  | (est, dicts) :: rest, acc, hinj, hnd, hfresh => by
    have h1 : paramMapGo (some cases) est 0 dicts acc =
        .ok (acc ++ pmapChunk cases est 0 dicts) := by
      refine paramMapGo_eq cases est hcn 0 dicts acc ?_
      intro kv hkv e he
      refine hfresh kv ?_ e he
      rw [pmapFull_mem]
      exact ⟨(est, dicts), List.mem_cons_self _ _, hkv⟩
    have h2 : paramMapOf (some cases) rest
        (acc ++ pmapChunk cases est 0 dicts) =
        .ok (acc ++ pmapChunk cases est 0 dicts ++ pmapFull cases rest) := by
      refine paramMapOf_eq cases hcn rest _ ?_ ?_ ?_
      · intro pe1 hp1 pe2 hp2 c1 hc1 c2 hc2 h
        exact hinj pe1 (List.mem_cons_of_mem _ hp1) pe2
          (List.mem_cons_of_mem _ hp2) c1 hc1 c2 hc2 h
      · exact (List.nodup_cons.1 (by simpa using hnd)).2
      · intro kv hkv e he
        rcases List.mem_append.1 he with h | h
        · refine hfresh kv ?_ e h
          rw [pmapFull_mem]
          obtain ⟨pe, hpe, hin⟩ := (pmapFull_mem cases rest kv).1 hkv
          exact ⟨pe, List.mem_cons_of_mem _ hpe, hin⟩
        · obtain ⟨c1, hc1, j1, _, he1⟩ := (pmapChunk_mem _ _ _ _ _).1 h
          obtain ⟨pe, hpe, hin⟩ := (pmapFull_mem cases rest kv).1 hkv
          obtain ⟨c2, hc2, j2, _, he2⟩ := (pmapChunk_mem _ _ _ _ _).1 hin
          rw [he1, he2]
          intro hk
          simp only [Prod.mk.injEq] at hk
          have heq : est = pe.1 :=
            hinj (est, dicts) (List.mem_cons_self _ _) pe
              (List.mem_cons_of_mem _ hpe) c1 hc1 c2 hc2 hk.1
          have hmem : pe.1 ∈ rest.map Prod.fst :=
            List.mem_map_of_mem Prod.fst hpe
          rw [← heq] at hmem
          exact (List.nodup_cons.1 (by simpa using hnd)).1 hmem
    simp only [paramMapOf, h1, h2, pmapFull, List.append_assoc]

theorem paramSetsGo_spec {D : Type} (rvs : Sampler D) (seed : Option Nat)
    (n : Nat) (hlen : ∀ d m s g, ((rvs d m s g).1).length = m)
    (pdicts : List (String × List (String × D))) :
    ∀ (ests : List String) (g : Nat),
    (∀ e ∈ ests, ∃ ds, pdicts.lookup e = some ds) →
    ∃ psets g2, paramSetsGo rvs seed n pdicts ests g = .ok (psets, g2) ∧
      psets.map Prod.fst = ests ∧
      ∀ pe ∈ psets, ∃ dists, pdicts.lookup pe.1 = some dists ∧
        pe.2.length = n ∧
        ∃ gs, ∀ i, i < n →
          pe.2.getD i [] = seqRow ((drawSeqs rvs seed n dists gs).1) i
  | [], g, _ => ⟨[], g, rfl, rfl, by simp⟩
  | est :: rest, g, hpd => by
    obtain ⟨ds, hds⟩ := hpd est (List.mem_cons_self _ _)
    obtain ⟨out, hdp, hol, hoget⟩ := draw_params_spec rvs seed n hlen ds g
    obtain ⟨tail, g3, htail, hmap, hprop⟩ :=
      paramSetsGo_spec rvs seed n hlen pdicts rest
        (drawSeqs rvs seed n ds g).2
        (fun e he => hpd e (List.mem_cons_of_mem _ he))
    refine ⟨(est, out) :: tail, g3, ?_, by simp [hmap], ?_⟩
    · simp only [paramSetsGo, hds, hdp, htail]
    · intro pe hpe
      rcases List.mem_cons.1 hpe with h | h
      · subst h
        exact ⟨ds, hds, hol, g, hoget⟩
      · exact hprop pe h

/-- C3 formal statement of the parameter-draw contract of `_param_sets`,
used by the claim theorem and reusable pieces. -/
theorem param_sets_spec {D : Type} (rvs : Sampler D) (seed : Option Nat)
    (n : Nat) (ests : List String)
    (pdicts : List (String × List (String × D))) (cases : List String)
    (g : Nat) (hlen : ∀ d m s g, ((rvs d m s g).1).length = m)
    (hpd : ∀ e ∈ ests, ∃ ds, pdicts.lookup e = some ds)
    (hests : ests.Nodup) (hcases : cases.Nodup)
    (hinj : ∀ e1 ∈ ests, ∀ e2 ∈ ests, ∀ c1 ∈ cases, ∀ c2 ∈ cases,
      e1 ++ "-" ++ c1 = e2 ++ "-" ++ c2 → e1 = e2) :
    ∃ psets g2, param_sets rvs seed n ests pdicts (some cases) g =
        .ok (psets, pmapFull cases psets, g2) ∧
      psets.map Prod.fst = ests ∧
      ∀ pe ∈ psets, ∃ dists, pdicts.lookup pe.1 = some dists ∧
        pe.2.length = n ∧
        ∃ gs, ∀ i, i < n →
          pe.2.getD i [] = seqRow ((drawSeqs rvs seed n dists gs).1) i := by
  obtain ⟨psets, g2, hgo, hmap, hprop⟩ :=
    paramSetsGo_spec rvs seed n hlen pdicts ests g hpd
  have hmof : paramMapOf (some cases) psets [] =
      .ok ([] ++ pmapFull cases psets) := by
    refine paramMapOf_eq cases hcases psets [] ?_ ?_ (by simp)
    · intro pe1 h1 pe2 h2 c1 hc1 c2 hc2 h
      exact hinj pe1.1 (hmap ▸ List.mem_map_of_mem Prod.fst h1) pe2.1
        (hmap ▸ List.mem_map_of_mem Prod.fst h2) c1 hc1 c2 hc2 h
    · rw [hmap]; exact hests
  rw [List.nil_append] at hmof
  exact ⟨psets, g2, by simp only [param_sets, hgo, hmof], hmap, hprop⟩

/-- C3: for every estimator and every `n_iter >= 1`, `_param_sets` produces
exactly `n_iter` parameter dictionaries per estimator, each mapping every
declared hyperparameter of that estimator to one sampled value, with values
aligned by draw index across the hyperparameters (dictionary `i` holds
position `i` of each hyperparameter single drawn sequence), and the parameter
map is keyed by `(estimator-case, draw)` with 1-based draw indices `1..n_iter`
for every preprocessing case, each key associated to that draw dictionary.
Hypotheses: the distribution capability honours its contract
(`rvs(n, seed)` returns exactly `n` values), every estimator has declared
distributions, estimator and case names are distinct, and the composite
`est + "-" + case` keys do not collide across estimators. -/
theorem evaluator_param_draws_C3 {D : Type} (rvs : Sampler D)
    (seed : Option Nat) (n : Nat) (ests : List String)
    (pdicts : List (String × List (String × D))) (cases : List String)
    (g : Nat) (hn : 1 ≤ n)
    (hlen : ∀ d m s g, ((rvs d m s g).1).length = m)
    (hpd : ∀ e ∈ ests, ∃ ds, pdicts.lookup e = some ds)
    (hests : ests.Nodup) (hcases : cases.Nodup)
    (hinj : ∀ e1 ∈ ests, ∀ e2 ∈ ests, ∀ c1 ∈ cases, ∀ c2 ∈ cases,
      e1 ++ "-" ++ c1 = e2 ++ "-" ++ c2 → e1 = e2) :
    ∃ psets pmap g2,
      param_sets rvs seed n ests pdicts (some cases) g =
        .ok (psets, pmap, g2) ∧
      psets.map Prod.fst = ests ∧
      (∀ pe ∈ psets, pe.2.length = n ∧
        ∃ dists, pdicts.lookup pe.1 = some dists ∧
        ∃ seqs, seqs.map Prod.fst = dists.map Prod.fst ∧
          (∀ s ∈ seqs, s.2.length = n) ∧
          ∀ i, i < n → pe.2.getD i [] = seqRow seqs i) ∧
      (∀ kv ∈ pmap, ∃ pe ∈ psets, ∃ c ∈ cases, ∃ dr, 1 ≤ dr ∧ dr ≤ n ∧
        kv = ((pe.1 ++ "-" ++ c, dr), pe.2.getD (dr - 1) [])) ∧
      (∀ pe ∈ psets, ∀ c ∈ cases, ∀ dr, 1 ≤ dr → dr ≤ n →
        ((pe.1 ++ "-" ++ c, dr), pe.2.getD (dr - 1) []) ∈ pmap) := by
  obtain ⟨psets, g2, heq, hmap, hprop⟩ :=
    param_sets_spec rvs seed n ests pdicts cases g hlen hpd hests hcases hinj
  refine ⟨psets, pmapFull cases psets, g2, heq, hmap, ?_, ?_, ?_⟩
  · intro pe hpe
    obtain ⟨dists, hd, hl, gs, hs⟩ := hprop pe hpe
    exact ⟨hl, dists, hd, (drawSeqs rvs seed n dists gs).1,
      drawSeqs_map_fst rvs seed n dists gs,
      drawSeqs_lengths rvs seed n hlen dists gs, hs⟩
  · intro kv hkv
    obtain ⟨pe, hpe, hin⟩ := (pmapFull_mem cases psets kv).1 hkv
    obtain ⟨c, hc, j, hj, hkveq⟩ := (pmapChunk_mem _ _ _ _ _).1 hin
    obtain ⟨_, _, hl, _⟩ := hprop pe hpe
    refine ⟨pe, hpe, c, hc, j + 1, by omega, by omega, ?_⟩
    rw [hkveq]
    have h1 : 0 + 1 + j = j + 1 := by omega
    have h2 : j + 1 - 1 = j := by omega
    rw [h1, h2]
  · intro pe hpe c hc dr h1 h2
    obtain ⟨_, _, hl, _⟩ := hprop pe hpe
    rw [pmapFull_mem]
    refine ⟨pe, hpe, ?_⟩
    rw [pmapChunk_mem]
    refine ⟨c, hc, dr - 1, by omega, ?_⟩
    have h3 : 0 + 1 + (dr - 1) = dr := by omega
    rw [h3]

theorem rvsModel_len : ∀ (d m : Nat) (s : Option Nat) (g : Nat),
    ((rvsModel d m s g).1).length = m := by
  intro d m s g
  cases s <;> simp [rvsModel]

theorem paramMapOf_none_error (est : String) (ps : PDict)
    (rest1 : List PDict) (rest2 : List (String × List PDict))
    (acc : List ((String × Nat) × PDict)) :
    paramMapOf none ((est, ps :: rest1) :: rest2) acc =
      .error "AttributeError: NoneType object has no attribute keys" := by
  simp [paramMapOf, paramMapGo]

theorem param_sets_none_error {D : Type} (rvs : Sampler D)
    (seed : Option Nat) (n : Nat) (ests : List String)
    (pdicts : List (String × List (String × D))) (g : Nat)
    (hlen : ∀ d m s g, ((rvs d m s g).1).length = m)
    (hpd : ∀ e ∈ ests, ∃ ds, pdicts.lookup e = some ds)
    (hne : ests ≠ []) (hn : 1 ≤ n) :
    param_sets rvs seed n ests pdicts none g =
      .error "AttributeError: NoneType object has no attribute keys" := by
  obtain ⟨psets, g2, hgo, hmap, hprop⟩ :=
    paramSetsGo_spec rvs seed n hlen pdicts ests g hpd
  match psets, hmap, hprop with
  | [], hmap, _ => exact absurd hmap.symm hne
  | pe :: tail, hmap, hprop =>
    obtain ⟨dists, _, hl, _⟩ := hprop pe (List.mem_cons_self _ _)
    have hne2 : pe.2 ≠ [] := by
      intro h
      rw [h] at hl
      simp at hl
      omega
    obtain ⟨ps, rest1, hps⟩ := List.exists_cons_of_ne_nil hne2
    have : (pe.1, ps :: rest1) = pe := by
      rw [← hps]
    rw [← this] at hgo
    simp only [param_sets, hgo, paramMapOf_none_error]

/-- C10: for every `Evaluator` with `preprocessing` left at its default
`None`, every `evaluate` call with at least one estimator and `n_iter >= 1`
(distributions declared for each estimator and honouring the sampling
contract) raises an exception before any cross-validation result is produced:
`_param_sets` iterates over `self.preprocessing.keys()` without guarding
against `None`, raising `AttributeError`, and the outcome is independent of
the cross-validation collaborator (second conjunct), so `preprocessing=None`
is not a usable configuration of `evaluate`. -/
theorem evaluate_none_preprocessing_C10 {D T X : Type} (rvs : Sampler D)
    (seed : Option Nat) (pf : X → X → T)
    (cvf cvf2 : T → List (String × List PDict) → List RRecord)
    (ests : List String) (pdicts : List (String × List (String × D)))
    (n : Nat) (st : EvalState T) (x y : X) (reset flush : Bool)
    (hlen : ∀ d m s g, ((rvs d m s g).1).length = m)
    (hpd : ∀ e ∈ ests, ∃ ds, pdicts.lookup e = some ds)
    (hne : ests ≠ []) (hn : 1 ≤ n) :
    evaluateM rvs seed pf cvf ests pdicts none n st x y reset flush =
      .error "AttributeError: NoneType object has no attribute keys" ∧
    evaluateM rvs seed pf cvf ests pdicts none n st x y reset flush =
      evaluateM rvs seed pf cvf2 ests pdicts none n st x y reset flush := by
  have hps := fun g =>
    param_sets_none_error rvs seed n ests pdicts g hlen hpd hne hn
  constructor
  · simp only [evaluateM, hps]
  · simp only [evaluateM, hps]

/-- C10 witness: one estimator with one declared distribution, `n_iter = 1`,
default `preprocessing=None`; `evaluate` fails with `AttributeError` and the
failure does not depend on the cross validator. -/
theorem evaluate_none_preprocessing_C10_witness :
    evaluateM rvsModel (some 3) (fun a b : Nat => a + b) (fun _ _ => [])
        ["A"] [("A", [("p", 5)])] none 1 ⟨none, 0, 0⟩ 2 3 false false =
      .error "AttributeError: NoneType object has no attribute keys" ∧
    evaluateM rvsModel (some 3) (fun a b : Nat => a + b) (fun _ _ => [])
        ["A"] [("A", [("p", 5)])] none 1 ⟨none, 0, 0⟩ 2 3 false false =
      evaluateM rvsModel (some 3) (fun a b : Nat => a + b)
        (fun _ _ => [⟨"A-c", 1, 1, 1, 1⟩])
        ["A"] [("A", [("p", 5)])] none 1 ⟨none, 0, 0⟩ 2 3 false false :=
  evaluate_none_preprocessing_C10 rvsModel (some 3) _ _ _ ["A"]
    [("A", [("p", 5)])] 1 ⟨none, 0, 0⟩ 2 3 false false rvsModel_len
    (by
      intro e he
      simp only [List.mem_singleton] at he
      subst he
      exact ⟨[("p", 5)], rfl⟩)
    (by simp) (by omega)

/-- C6: cache lifecycle of the preprocessed fold table in `evaluate`.
First conjunct: with a cached table `t` and `reset_preprocess=False`,
`evaluate` reuses `t` without re-running preprocessing — the result is built
from `cvf t`, the preprocess counter is unchanged, and the right-hand side
does not mention the data arguments `x, y` at all (so stale data is never
re-read).  Second conjunct: with `reset_preprocess=True` preprocessing is
re-run (`pf x y` replaces the table, counter increments).  Third conjunct:
with `flush_preprocess=True` any successful evaluation leaves no cached
table. -/
theorem evaluate_cache_C6 {D T X : Type} (rvs : Sampler D)
    (seed : Option Nat) (pf : X → X → T)
    (cvf : T → List (String × List PDict) → List RRecord)
    (ests : List String) (pdicts : List (String × List (String × D)))
    (prep : Option (List String)) (n : Nat) (st : EvalState T)
    (x y : X) (reset flush : Bool) (t : T) :
    (st.dout = some t →
      evaluateM rvs seed pf cvf ests pdicts prep n st x y false flush =
        (match param_sets rvs seed n ests pdicts prep st.g with
         | .error e => .error e
         | .ok (psets, pmap, g2) =>
           .ok (resultsOf (cvf t psets) pmap,
             ⟨if flush then none else some t, g2, st.prepCount⟩))) ∧
    (evaluateM rvs seed pf cvf ests pdicts prep n st x y true flush =
        (match param_sets rvs seed n ests pdicts prep st.g with
         | .error e => .error e
         | .ok (psets, pmap, g2) =>
           .ok (resultsOf (cvf (pf x y) psets) pmap,
             ⟨if flush then none else some (pf x y), g2,
               st.prepCount + 1⟩))) ∧
    (∀ res st2, flush = true →
      evaluateM rvs seed pf cvf ests pdicts prep n st x y reset flush =
        .ok (res, st2) → st2.dout = none) := by
  obtain ⟨dd, gg, pc⟩ := st
  refine ⟨?_, ?_, ?_⟩
  · intro h
    simp only at h
    subst h
    cases hq : param_sets rvs seed n ests pdicts prep gg with
    | error e => simp [evaluateM, hq]
    | ok v =>
      obtain ⟨psets, pmap, g2⟩ := v
      cases flush <;> simp [evaluateM, hq]
  · cases hq : param_sets rvs seed n ests pdicts prep gg with
    | error e => simp [evaluateM, hq, preprocessM]
    | ok v =>
      obtain ⟨psets, pmap, g2⟩ := v
      cases flush <;> simp [evaluateM, hq, preprocessM]
  · intro res st2 hfl heval
    subst hfl
    revert heval
    simp only [evaluateM]
    cases hq : param_sets rvs seed n ests pdicts prep
        (if dd.isNone || reset then preprocessM pf ⟨dd, gg, pc⟩ x y
          else ⟨dd, gg, pc⟩).g with
    | error e => intro heval; exact absurd heval (by simp)
    | ok v =>
      obtain ⟨psets, pmap, g2⟩ := v
      cases hdo : (if dd.isNone || reset then preprocessM pf ⟨dd, gg, pc⟩ x y
          else ⟨dd, gg, pc⟩).dout with
      | none => intro heval; exact absurd heval (by simp)
      | some t2 =>
        intro heval
        simp only [Except.ok.injEq, Prod.mk.injEq] at heval
        rw [← heval.2]
        simp

/-- C6 witness: a concrete evaluator state with a cached fold table 9.
Without reset the cached table is reused and the preprocess counter stays 0;
with reset the table is recomputed (counter 1); with flush the final state
holds no table. -/
theorem evaluate_cache_C6_witness :
    evaluateM (X := Nat) rvsModel (some 1) (fun a b => a + b)
        (fun _ _ => []) ["A"] [("A", [("p", 5)])] (some ["c"]) 1
        ⟨some 9, 0, 0⟩ 2 3 false true = .ok (([], []), ⟨none, 0, 0⟩) ∧
    evaluateM (X := Nat) rvsModel (some 1) (fun a b => a + b)
        (fun _ _ => []) ["A"] [("A", [("p", 5)])] (some ["c"]) 1
        ⟨some 9, 0, 0⟩ 2 3 true true = .ok (([], []), ⟨none, 0, 1⟩) ∧
    (⟨none, 0, 1⟩ : EvalState Nat).dout = none := by
  have h := evaluate_cache_C6 (X := Nat) rvsModel (some 1)
    (fun a b => a + b) (fun _ _ => []) ["A"] [("A", [("p", 5)])]
    (some ["c"]) 1 ⟨some 9, 0, 0⟩ 2 3 true true 9
  refine ⟨(h.1 rfl).trans (by rfl), (h.2.1).trans (by rfl), ?_⟩
  exact h.2.2 ([], []) ⟨none, 0, 1⟩ rfl ((h.2.1).trans (by rfl))

/-- C3 witness: two estimators, one hyperparameter each, two preprocessing
cases, `n_iter = 2`, seed 7 — the parameter-draw contract holds at this
concrete input. -/
theorem evaluator_param_draws_C3_witness :
    ∃ psets pmap g2,
      param_sets rvsModel (some 7) 2 ["A", "B"]
          [("A", [("p", 5)]), ("B", [("q", 5)])] (some ["c1", "c2"]) 0 =
        .ok (psets, pmap, g2) ∧
      psets.map Prod.fst = ["A", "B"] ∧
      (∀ pe ∈ psets, pe.2.length = 2 ∧
        ∃ dists,
          ([("A", [("p", 5)]), ("B", [("q", 5)])] :
            List (String × List (String × Nat))).lookup pe.1 = some dists ∧
        ∃ seqs, seqs.map Prod.fst = dists.map Prod.fst ∧
          (∀ s ∈ seqs, s.2.length = 2) ∧
          ∀ i, i < 2 → pe.2.getD i [] = seqRow seqs i) ∧
      (∀ kv ∈ pmap, ∃ pe ∈ psets, ∃ c ∈ ["c1", "c2"], ∃ dr,
        1 ≤ dr ∧ dr ≤ 2 ∧
        kv = ((pe.1 ++ "-" ++ c, dr), pe.2.getD (dr - 1) [])) ∧
      (∀ pe ∈ psets, ∀ c ∈ ["c1", "c2"], ∀ dr, 1 ≤ dr → dr ≤ 2 →
        ((pe.1 ++ "-" ++ c, dr), pe.2.getD (dr - 1) []) ∈ pmap) :=
  evaluator_param_draws_C3 rvsModel (some 7) 2 ["A", "B"]
    [("A", [("p", 5)]), ("B", [("q", 5)])] ["c1", "c2"] 0 (by omega)
    rvsModel_len
    (by
      intro e he
      simp only [List.mem_cons, List.not_mem_nil, or_false] at he
      rcases he with rfl | rfl
      · exact ⟨[("p", 5)], rfl⟩
      · exact ⟨[("q", 5)], rfl⟩)
    (by decide) (by decide) (by decide)

theorem drawSeqs_det {D : Type} (rvs : Sampler D) (s n : Nat)
    (hdet : ∀ d m g1 g2, (rvs d m (some s) g1).1 = (rvs d m (some s) g2).1) :
    ∀ (dists : List (String × D)) (g : Nat),
    (drawSeqs rvs (some s) n dists g).1 =
      dists.map fun pd => (pd.1, (rvs pd.2 n (some s) 0).1)
  | [], g => rfl
  | (p, d) :: rest, g => by
    simp only [drawSeqs, List.map_cons]
    exact congrArg₂ _ (congrArg _ (hdet d n g 0))
      (drawSeqs_det rvs s n hdet rest _)

theorem lookup_map_of_nodup {D : Type} (f : D → ℚ) :
    ∀ (ds : List (String × D)) (p : String) (d : D),
    (ds.map Prod.fst).Nodup → (p, d) ∈ ds →
    (ds.map fun pd => (pd.1, f pd.2)).lookup p = some (f d)
  | [], p, d, _, hm => by simp at hm
  | (p0, d0) :: rest, p, d, hnd, hm => by
    rcases List.mem_cons.1 hm with h | h
    · obtain ⟨h1, h2⟩ := Prod.mk.injEq .. ▸ h
      injection h with h1 h2
      subst h1
      subst h2
      simp [List.lookup]
    · have hne : p ≠ p0 := by
        intro he
        subst he
        have : p ∈ rest.map Prod.fst := List.mem_map_of_mem Prod.fst h
        exact (List.nodup_cons.1 (by simpa using hnd)).1 this
      have hb : (p == p0) = false := beq_eq_false_iff_ne.2 hne
      simp only [List.map_cons, List.lookup, hb]
      exact lookup_map_of_nodup f rest p d
        (List.nodup_cons.1 (by simpa using hnd)).2 h

/-- C4 counterexample: the claim says draws for distinct hyperparameters or
estimators with identical distributions are independent, not paired.  In the
code every `rvs` call receives the same evaluator-level `random_state`, so
with a fixed seed (7 here) two estimators declaring the same distribution
(id 5) receive identical drawn value sequences: both get `[[12], [13]]`. -/
theorem evaluator_paired_draws_C4_counterexample :
    (param_sets rvsModel (some 7) 2 ["A", "B"]
        [("A", [("p", 5)]), ("B", [("q", 5)])] (some ["c"]) 0).map
      (fun r =>
        (r.1.map fun pe => pe.2.map fun dct => dct.map Prod.snd).getD 0 []) =
    (param_sets rvsModel (some 7) 2 ["A", "B"]
        [("A", [("p", 5)]), ("B", [("q", 5)])] (some ["c"]) 0).map
      (fun r =>
        (r.1.map fun pe => pe.2.map fun dct => dct.map Prod.snd).getD 1 []) :=
  rfl

/-- C4 as amended: each hyperparameter does get its own `rvs` call, but every
call passes the same evaluator `random_state`; under a fixed seed `s` (and a
distribution capability that is deterministic given a seed, the contract
`sample(n, seed)` of the spec) any two hyperparameters of any two estimators
declaring equal distributions are forced to receive identical value
sequences: at every draw index the two dictionaries hold the same value. -/
theorem evaluator_paired_draws_C4_amended {D : Type} (rvs : Sampler D)
    (s n : Nat) (ests : List String)
    (pdicts : List (String × List (String × D))) (prep : Option (List String))
    (g : Nat) (psets : List (String × List PDict))
    (pmap : List ((String × Nat) × PDict)) (g2 : Nat)
    (hdet : ∀ d m g1 g2, (rvs d m (some s) g1).1 = (rvs d m (some s) g2).1)
    (hlen : ∀ d m sd g, ((rvs d m sd g).1).length = m)
    (hpd : ∀ e ∈ ests, ∃ ds, pdicts.lookup e = some ds)
    (hrun : param_sets rvs (some s) n ests pdicts prep g =
      .ok (psets, pmap, g2))
    (pe1 pe2 : String × List PDict) (hpe1 : pe1 ∈ psets) (hpe2 : pe2 ∈ psets)
    (ds1 ds2 : List (String × D))
    (hd1 : pdicts.lookup pe1.1 = some ds1)
    (hd2 : pdicts.lookup pe2.1 = some ds2)
    (hn1 : (ds1.map Prod.fst).Nodup) (hn2 : (ds2.map Prod.fst).Nodup)
    (p1 p2 : String) (d : D) (hp1 : (p1, d) ∈ ds1) (hp2 : (p2, d) ∈ ds2)
    (i : Nat) (hi : i < n) :
    (pe1.2.getD i []).lookup p1 = (pe2.2.getD i []).lookup p2 := by
  have hgo : ∃ g3, paramSetsGo rvs (some s) n pdicts ests g =
      .ok (psets, g3) := by
    revert hrun
    unfold param_sets
    cases hq : paramSetsGo rvs (some s) n pdicts ests g with
    | error e => intro hrun; exact absurd hrun (by simp)
    | ok v =>
      obtain ⟨psets9, g9⟩ := v
      cases hm : paramMapOf prep psets9 [] with
      | error e => intro hrun; exact absurd hrun (by simp [hm])
      | ok pm =>
        intro hrun
        simp only [hm, Except.ok.injEq, Prod.mk.injEq] at hrun
        exact ⟨g9, by rw [hrun.1]⟩
  obtain ⟨g3, hgo⟩ := hgo
  obtain ⟨psets9, g9, hgo9, _, hprop⟩ :=
    paramSetsGo_spec rvs (some s) n hlen pdicts ests g hpd
  rw [hgo] at hgo9
  injection hgo9 with hgo9
  injection hgo9 with hps hg
  subst hps
  obtain ⟨dists1, hld1, _, gs1, hs1⟩ := hprop pe1 hpe1
  obtain ⟨dists2, hld2, _, gs2, hs2⟩ := hprop pe2 hpe2
  rw [hd1] at hld1
  injection hld1 with hld1
  subst hld1
  rw [hd2] at hld2
  injection hld2 with hld2
  subst hld2
  rw [hs1 i hi, hs2 i hi]
  unfold seqRow
  rw [drawSeqs_det rvs s n hdet ds1 gs1, drawSeqs_det rvs s n hdet ds2 gs2,
    List.map_map, List.map_map]
  have e1 := lookup_map_of_nodup
    (fun dd => (((rvs dd n (some s) 0).1).getD i 0)) ds1 p1 d hn1 hp1
  have e2 := lookup_map_of_nodup
    (fun dd => (((rvs dd n (some s) 0).1).getD i 0)) ds2 p2 d hn2 hp2
  exact e1.trans e2.symm

/-- C4 witness for the amended theorem: in the concrete run of the
counterexample, the value of hyperparameter `p` of estimator `A` at draw 0
equals the value of hyperparameter `q` of estimator `B` at draw 0. -/
theorem evaluator_paired_draws_C4_witness :
    (([[("p", 12)], [("p", 13)]] : List PDict).getD 0 []).lookup "p" =
      (([[("q", 12)], [("q", 13)]] : List PDict).getD 0 []).lookup "q" :=
  evaluator_paired_draws_C4_amended rvsModel 7 2 ["A", "B"]
    [("A", [("p", 5)]), ("B", [("q", 5)])] (some ["c"]) 0
    [("A", [[("p", 12)], [("p", 13)]]), ("B", [[("q", 12)], [("q", 13)]])]
    [(("A-c", 1), [("p", 12)]), (("A-c", 2), [("p", 13)]),
     (("B-c", 1), [("q", 12)]), (("B-c", 2), [("q", 13)])] 0
    (fun _ _ _ _ => rfl) rvsModel_len
    (by
      intro e he
      simp only [List.mem_cons, List.not_mem_nil, or_false] at he
      rcases he with rfl | rfl
      · exact ⟨[("p", 5)], rfl⟩
      · exact ⟨[("q", 5)], rfl⟩)
    rfl
    ("A", [[("p", 12)], [("p", 13)]]) ("B", [[("q", 12)], [("q", 13)]])
    (by simp) (by simp)
    [("p", 5)] [("q", 5)] rfl rfl (by simp) (by simp)
    "p" "q" 5 (by simp) (by simp) 0 (by omega)

theorem drawParamsGo_g_irrel {D : Type} (rvs : Sampler D) (s n : Nat)
    (hdet : ∀ d m g1 g2, (rvs d m (some s) g1).1 = (rvs d m (some s) g2).1) :
    ∀ (dists : List (String × D)) (dicts : List PDict) (g1 g2 : Nat),
    (drawParamsGo rvs (some s) n dists (dicts, g1)).map Prod.fst =
      (drawParamsGo rvs (some s) n dists (dicts, g2)).map Prod.fst
  | [], dicts, g1, g2 => rfl
  | (p, d) :: rest, dicts, g1, g2 => by
    simp only [drawParamsGo]
    rw [show (rvs d n (some s) g1).1 = (rvs d n (some s) g2).1 from
      hdet d n g1 g2]
    cases assignParam p (rvs d n (some s) g2).1 dicts with
    | error e => rfl
    | ok dicts2 => exact drawParamsGo_g_irrel rvs s n hdet rest dicts2 _ _

theorem paramSetsGo_g_irrel {D : Type} (rvs : Sampler D) (s n : Nat)
    (pdicts : List (String × List (String × D)))
    (hdet : ∀ d m g1 g2, (rvs d m (some s) g1).1 = (rvs d m (some s) g2).1) :
    ∀ (ests : List String) (g1 g2 : Nat),
    (paramSetsGo rvs (some s) n pdicts ests g1).map Prod.fst =
      (paramSetsGo rvs (some s) n pdicts ests g2).map Prod.fst
  | [], g1, g2 => rfl
  | est :: rest, g1, g2 => by
    cases hl : pdicts.lookup est with
    | none => simp only [paramSetsGo, hl]
    | some dists =>
      have h : (draw_params rvs (some s) n dists g1).map Prod.fst =
          (draw_params rvs (some s) n dists g2).map Prod.fst :=
        drawParamsGo_g_irrel rvs s n hdet dists (List.replicate n []) g1 g2
      cases hq1 : draw_params rvs (some s) n dists g1 with
      | error e1 =>
        cases hq2 : draw_params rvs (some s) n dists g2 with
        | error e2 =>
          rw [hq1, hq2] at h
          simp only [Except.map] at h
          injection h with h
          simp only [paramSetsGo, hl, hq1, hq2, h]
        | ok v2 =>
          rw [hq1, hq2] at h
          exact absurd h (by simp [Except.map])
      | ok v1 =>
        cases hq2 : draw_params rvs (some s) n dists g2 with
        | error e2 =>
          rw [hq1, hq2] at h
          exact absurd h (by simp [Except.map])
        | ok v2 =>
          rw [hq1, hq2] at h
          obtain ⟨dc1, ga⟩ := v1
          obtain ⟨dc2, gb⟩ := v2
          simp only [Except.map, Except.ok.injEq] at h
          subst h
          have h2 := paramSetsGo_g_irrel rvs s n pdicts hdet rest ga gb
          cases hr1 : paramSetsGo rvs (some s) n pdicts rest ga with
          | error e1 =>
            cases hr2 : paramSetsGo rvs (some s) n pdicts rest gb with
            | error e2 =>
              rw [hr1, hr2] at h2
              simp only [Except.map] at h2
              injection h2 with h2
              simp only [paramSetsGo, hl, hq1, hq2, hr1, hr2, h2]
            | ok w2 =>
              rw [hr1, hr2] at h2
              exact absurd h2 (by simp [Except.map])
          | ok w1 =>
            cases hr2 : paramSetsGo rvs (some s) n pdicts rest gb with
            | error e2 =>
              rw [hr1, hr2] at h2
              exact absurd h2 (by simp [Except.map])
            | ok w2 =>
              rw [hr1, hr2] at h2
              obtain ⟨t1, gc⟩ := w1
              obtain ⟨t2, gd⟩ := w2
              simp only [Except.map, Except.ok.injEq] at h2
              subst h2
              simp only [paramSetsGo, hl, hq1, hq2, hr1, hr2, Except.map]

/-- C5: determinism under a fixed seed.  Two runs that differ only in the
ambient global RNG state (`g1` versus `g2` — everything a repeated run could
pick up from the environment) produce identical fold partitions and identical
parameter draws (the same values in the same draw positions for every
estimator and hyperparameter; only the threaded RNG state may differ, hence
the `.map` dropping it).  Requires the capability contract that a seeded
`rvs` call is deterministic: the evaluator passes its `random_state` to the
fold indexer and to every `rvs` call. -/
theorem evaluator_determinism_C5 {D : Type} (rvs : Sampler D) (s n : Nat)
    (ests : List String) (pdicts : List (String × List (String × D)))
    (prep : Option (List String)) (nsamples k : Nat) (shuffle : Bool)
    (g1 g2 : Nat)
    (hdet : ∀ d m ga gb, (rvs d m (some s) ga).1 = (rvs d m (some s) gb).1) :
    foldPlan nsamples k shuffle (some s) g1 =
      foldPlan nsamples k shuffle (some s) g2 ∧
    (param_sets rvs (some s) n ests pdicts prep g1).map
        (fun r => (r.1, r.2.1)) =
      (param_sets rvs (some s) n ests pdicts prep g2).map
        (fun r => (r.1, r.2.1)) := by
  constructor
  · rfl
  · have h := paramSetsGo_g_irrel rvs s n pdicts hdet ests g1 g2
    cases hq1 : paramSetsGo rvs (some s) n pdicts ests g1 with
    | error e1 =>
      cases hq2 : paramSetsGo rvs (some s) n pdicts ests g2 with
      | error e2 =>
        rw [hq1, hq2] at h
        simp only [Except.map] at h
        injection h with h
        simp only [param_sets, hq1, hq2, h]
      | ok v2 =>
        rw [hq1, hq2] at h
        exact absurd h (by simp [Except.map])
    | ok v1 =>
      cases hq2 : paramSetsGo rvs (some s) n pdicts ests g2 with
      | error e2 =>
        rw [hq1, hq2] at h
        exact absurd h (by simp [Except.map])
      | ok v2 =>
        rw [hq1, hq2] at h
        obtain ⟨ps1, ga⟩ := v1
        obtain ⟨ps2, gb⟩ := v2
        simp only [Except.map, Except.ok.injEq] at h
        subst h
        cases hm : paramMapOf prep ps1 [] with
        | error e => simp only [param_sets, hq1, hq2, hm]
        | ok pm => simp only [param_sets, hq1, hq2, hm, Except.map]

/-- C5 witness: with seed 4 and shuffling on, two runs from different global
RNG states 0 and 99 agree on the fold plan and on every parameter draw. -/
theorem evaluator_determinism_C5_witness :
    foldPlan 6 3 true (some 4) 0 = foldPlan 6 3 true (some 4) 99 ∧
    (param_sets rvsModel (some 4) 2 ["A", "B"]
        [("A", [("p", 5)]), ("B", [("q", 5)])] (some ["c"]) 0).map
        (fun r => (r.1, r.2.1)) =
      (param_sets rvsModel (some 4) 2 ["A", "B"]
        [("A", [("p", 5)]), ("B", [("q", 5)])] (some ["c"]) 99).map
        (fun r => (r.1, r.2.1)) :=
  evaluator_determinism_C5 rvsModel 4 2 ["A", "B"]
    [("A", [("p", 5)]), ("B", [("q", 5)])] (some ["c"]) 6 3 true 0 99
    (fun _ _ _ _ => rfl)

theorem layerPredict_prod {S M : Type} (cases : List (String × TCap S))
    (ests : List (String × ECap M)) (folds : List (List Nat × List Nat))
    (X : Mat) (y : Vec) (Xnew : Mat) :
    layerPredict (layerFit cases ests folds X y).2 Xnew
      = prodRefMatrix cases ests X y Xnew := by
  simp [layerPredict, layerFit, prodRefMatrix, List.map_flatMap,
    List.map_map, Function.comp_def]

theorem lcFit_go {S M : Type} (folds : List (List Nat × List Nat)) (y : Vec) :
    ∀ (layers : List (LayerSpec S M)) (X : Mat)
      (acc : List (List (FittedPair S M))),
    layers.foldl (fun acc ly =>
      let r := layerFit ly.cases ly.ests folds acc.1 y
      (r.1, acc.2 ++ [r.2])) (X, acc) =
    ((lcFit layers folds X y).1, acc ++ (lcFit layers folds X y).2)
  | [], X, acc => by simp [lcFit]
  | ly :: rest, X, acc => by
    simp only [lcFit, List.foldl_cons]
    rw [lcFit_go folds y rest _ _, lcFit_go folds y rest _ _]
    simp

theorem lcPredict_prodRef {S M : Type} (folds : List (List Nat × List Nat))
    (y : Vec) : ∀ (layers : List (LayerSpec S M)) (X Xnew : Mat),
    lcPredict (lcFit layers folds X y).2 Xnew = lcProdRef layers folds X y Xnew
  | [], X, Xnew => rfl
  | ly :: rest, X, Xnew => by
    have h1 : lcFit (ly :: rest) folds X y =
        ((lcFit rest folds (layerFitMatrix ly.cases ly.ests folds X y) y).1,
          (layerFit ly.cases ly.ests folds X y).2 ::
            (lcFit rest folds (layerFitMatrix ly.cases ly.ests folds X y)
              y).2) := by
      show (List.foldl _ _ (ly :: rest) : Mat × _) = _
      simp only [List.foldl_cons]
      rw [lcFit_go folds y rest _ _]
      simp [layerFit]
    rw [h1]
    show lcPredict _ _ = _
    have h2 : lcPredict ((layerFit ly.cases ly.ests folds X y).2 ::
        (lcFit rest folds (layerFitMatrix ly.cases ly.ests folds X y) y).2)
          Xnew =
        lcPredict
          (lcFit rest folds (layerFitMatrix ly.cases ly.ests folds X y) y).2
          (layerPredict (layerFit ly.cases ly.ests folds X y).2 Xnew) := rfl
    rw [h2, layerPredict_prod, lcPredict_prodRef folds y rest _ _]
    rfl

/-- C7: for every fitted Layer and LayerContainer, `predict` applies each
case production-fitted transform chain and production estimator — first
conjunct: the Layer prediction matrix equals the independently computed
production reference, with columns in the fit-time (case, estimator) order;
second conjunct: the production-fitted state does not depend on the fold
plan at all (the production instance was fit on the full data, not any
per-fold instance, and no fold logic enters predict); third conjunct: the
container chains identically, layer by layer. -/
theorem layer_predict_production_C7 {S M : Type}
    (cases : List (String × TCap S)) (ests : List (String × ECap M))
    (folds folds2 : List (List Nat × List Nat)) (X : Mat) (y : Vec)
    (Xnew : Mat) (layers : List (LayerSpec S M)) :
    layerPredict (layerFit cases ests folds X y).2 Xnew
      = prodRefMatrix cases ests X y Xnew ∧
    (layerFit cases ests folds X y).2 = (layerFit cases ests folds2 X y).2 ∧
    lcPredict (lcFit layers folds X y).2 Xnew =
      lcProdRef layers folds X y Xnew :=
  ⟨layerPredict_prod cases ests folds X y Xnew, rfl,
    lcPredict_prodRef folds y layers X Xnew⟩

/-- C1: the literal scenario — 6 samples, 2 features, 3 folds, one
preprocessing case with a no-op step, two estimators.  Fitting the Layer
returns a 6-row out-of-fold prediction matrix; it equals the independently
computed reference matrix `refMatrix` (manually locating each row fold,
fitting on that fold train partition and predicting the row); and row `r` of
the matrix is produced by instances fit exactly on the scenario train rows
(rows 0 and 1 from rows 2..5, rows 2 and 3 from rows 0, 1, 4, 5, rows 4 and 5
from rows 0..3), never containing `r` itself. -/
theorem layer_fit_scenario_C1 {M : Type} (e1 e2 : ECap M)
    (x00 x01 x10 x11 x20 x21 x30 x31 x40 x41 x50 x51 : ℚ)
    (y0 y1 y2 y3 y4 y5 : ℚ) :
    let X : Mat := [[x00, x01], [x10, x11], [x20, x21],
                    [x30, x31], [x40, x41], [x50, x51]]
    let y : Vec := [y0, y1, y2, y3, y4, y5]
    let folds := (foldPlan 6 3 false none 0).getD []
    let cases := [("no", noopT)]
    let ests := [("est-1", e1), ("est-2", e2)]
    ((layerFit cases ests folds X y).1).length = 6 ∧
    (layerFit cases ests folds X y).1 = refMatrix cases ests folds X y ∧
    ∀ r : Fin 6, r.val ∉ scenarioTrain r.val ∧
      ((layerFit cases ests folds X y).1).getD r.val [] =
        [e1.epred (e1.efit (rowsAt X (scenarioTrain r.val))
            (valsAt y (scenarioTrain r.val))) (X.getD r.val []),
         e2.epred (e2.efit (rowsAt X (scenarioTrain r.val))
            (valsAt y (scenarioTrain r.val))) (X.getD r.val [])] := by
  refine ⟨rfl, rfl, fun r => ?_⟩
  fin_cases r <;> exact ⟨by decide, rfl⟩

/-- C8: fitting a LayerContainer from file paths (the file adapter
materializes the stored arrays and proceeds identically) produces exactly
the out-of-fold prediction matrix and fitted production states of the
in-memory fit, and predicting from the file path afterwards equals the
in-memory predict output. -/
theorem lc_fit_from_file_C8 {S M : Type} (store : String → Mat)
    (storeY : String → Vec) (layers : List (LayerSpec S M))
    (folds : List (List Nat × List Nat)) (xp yp : String) (X : Mat)
    (y : Vec) (hx : store xp = X) (hy : storeY yp = y) :
    lcFitFile store storeY layers folds xp yp = lcFit layers folds X y ∧
    lcPredictFile store (lcFitFile store storeY layers folds xp yp).2 xp =
      lcPredict (lcFit layers folds X y).2 X := by
  subst hx
  subst hy
  exact ⟨rfl, rfl⟩

/-- C8 witness: a concrete two-path store holding a 2-sample data set; the
file fit coincides with the in-memory fit and so does the subsequent
predict. -/
theorem lc_fit_from_file_C8_witness :
    lcFitFile (S := Unit) (M := List ℚ)
        (fun _ => [[1, 2], [3, 4]]) (fun _ => [5, 6]) [] [] "x.csv" "y.csv" =
      lcFit [] [] [[1, 2], [3, 4]] [5, 6] ∧
    lcPredictFile (fun _ => [[1, 2], [3, 4]])
        (lcFitFile (S := Unit) (M := List ℚ) (fun _ => [[1, 2], [3, 4]])
          (fun _ => [5, 6]) [] [] "x.csv" "y.csv").2 "x.csv" =
      lcPredict (lcFit (S := Unit) (M := List ℚ) [] []
        [[1, 2], [3, 4]] [5, 6]).2 [[1, 2], [3, 4]] :=
  lc_fit_from_file_C8 (fun _ => [[1, 2], [3, 4]]) (fun _ => [5, 6]) [] []
    "x.csv" "y.csv" [[1, 2], [3, 4]] [5, 6] rfl rfl



theorem firstMax_eq_none : ∀ (l : List ((String × Nat) × AggRow)),
    firstMax l = none → l = []
  | [], _ => rfl
  | a :: t, h => by
    cases ht : firstMax t with
    | none =>
      simp only [firstMax, ht] at h
      exact absurd h (by simp)
    | some y =>
      simp only [firstMax, ht] at h
      split at h <;> simp at h

theorem firstMax_mem : ∀ (l : List ((String × Nat) × AggRow)) (x),
    firstMax l = some x → x ∈ l
  | [], x, h => by simp [firstMax] at h
  | a :: t, x, h => by
    cases ht : firstMax t with
    | none =>
      simp only [firstMax, ht] at h
      injection h with h
      exact h ▸ List.mem_cons_self a t
    | some y =>
      simp only [firstMax, ht] at h
      split at h
      · injection h with h
        exact List.mem_cons_of_mem a (h ▸ firstMax_mem t y ht)
      · injection h with h
        exact h ▸ List.mem_cons_self a t

theorem firstMax_isSome : ∀ (l : List ((String × Nat) × AggRow)), l ≠ [] →
    ∃ x, firstMax l = some x
  | [], h => absurd rfl h
  | a :: t, _ => by
    cases ht : firstMax t with
    | none => exact ⟨a, by simp only [firstMax, ht]⟩
    | some y =>
      by_cases hc : a.2.test_mean < y.2.test_mean
      · exact ⟨y, by simp only [firstMax, ht, if_pos hc]⟩
      · exact ⟨a, by simp only [firstMax, ht, if_neg hc]⟩

theorem firstMax_le : ∀ (l : List ((String × Nat) × AggRow)) (x),
    firstMax l = some x → ∀ z ∈ l, z.2.test_mean ≤ x.2.test_mean
  | [], x, h => by simp [firstMax] at h
  | a :: t, x, h => by
    intro z hz
    cases ht : firstMax t with
    | none =>
      have he : t = [] := firstMax_eq_none t ht
      subst he
      simp only [firstMax, ht] at h
      injection h with h
      subst h
      simp only [List.mem_singleton] at hz
      rw [hz]
    | some y =>
      simp only [firstMax, ht] at h
      rcases List.mem_cons.1 hz with rfl | hzt
      · split at h
        · injection h with h
          subst h
          exact le_of_lt (by assumption)
        · injection h with h
          rw [h]
      · have hle := firstMax_le t y ht z hzt
        split at h
        · injection h with h
          subst h
          exact hle
        · injection h with h
          subst h
          exact hle.trans (le_of_not_lt (by assumption))

theorem firstMax_first :
    ∀ (l : List ((String × Nat) × AggRow)) (x),
    l.Pairwise (fun a b => a.1.2 < b.1.2) → firstMax l = some x →
    ∀ z ∈ l, z.2.test_mean = x.2.test_mean → x.1.2 ≤ z.1.2
  | [], x, _, h => by simp [firstMax] at h
  | a :: t, x, hp, h => by
    intro z hz htie
    rw [List.pairwise_cons] at hp
    cases ht : firstMax t with
    | none =>
      have he : t = [] := firstMax_eq_none t ht
      subst he
      simp only [firstMax, ht] at h
      injection h with h
      subst h
      simp only [List.mem_singleton] at hz
      rw [hz]
    | some y =>
      simp only [firstMax, ht] at h
      rcases List.mem_cons.1 hz with rfl | hzt
      · split at h
        · injection h with h
          subst h
          exact absurd htie (ne_of_lt (by assumption))
        · injection h with h
          rw [h]
      · split at h
        · injection h with h
          subst h
          exact firstMax_first t y hp.2 ht z hzt htie
        · injection h with h
          subst h
          exact le_of_lt (hp.1 z hzt)



theorem groupKeys_mem (out : List RRecord) (k : String × Nat) :
    k ∈ groupKeys out ↔ k ∈ out.map fun r => (r.est, r.draw) := by
  unfold groupKeys
  rw [(List.perm_insertionSort keyLE _).mem_iff, List.mem_dedup]

theorem estNames_mem (out : List RRecord) (e : String) :
    e ∈ estNames out ↔ e ∈ out.map (·.est) := by
  unfold estNames
  rw [(List.perm_insertionSort _ _).mem_iff, List.mem_dedup]

theorem groupKeys_nodup (out : List RRecord) : (groupKeys out).Nodup :=
  ((List.perm_insertionSort keyLE _).nodup_iff).2 (List.nodup_dedup _)

theorem groupKeys_sorted (out : List RRecord) :
    (groupKeys out).Sorted keyLE :=
  List.sorted_insertionSort keyLE _

theorem pairwise_imp_mem {α : Type} {R S : α → α → Prop} :
    ∀ (l : List α), l.Pairwise R →
    (∀ a ∈ l, ∀ b ∈ l, R a b → S a b) → l.Pairwise S
  | [], _, _ => List.Pairwise.nil
  | a :: l, hp, h => by
    rw [List.pairwise_cons] at hp ⊢
    refine ⟨fun b hb => h a (List.mem_cons_self a l) b
      (List.mem_cons_of_mem a hb) (hp.1 b hb), ?_⟩
    exact pairwise_imp_mem l hp.2 fun x hx y hy =>
      h x (List.mem_cons_of_mem a hx) y (List.mem_cons_of_mem a hy)

theorem cv_results_pairwise (out : List RRecord) :
    (cv_results out).Pairwise fun a b => keyLE a.1 b.1 ∧ a.1 ≠ b.1 := by
  unfold cv_results
  rw [List.pairwise_map]
  exact ((groupKeys_sorted out).and (groupKeys_nodup out)).imp fun h => h

theorem filter_rows_pairwise (out : List RRecord) (e : String) :
    ((cv_results out).filter fun r => r.1.1 = e).Pairwise
      fun a b => a.1.2 < b.1.2 := by
  have h1 := List.Pairwise.filter (fun r => decide (r.1.1 = e))
    (cv_results_pairwise out)
  refine pairwise_imp_mem _ h1 ?_
  intro a ha b hb hr
  have hae : a.1.1 = e := of_decide_eq_true (List.mem_filter.1 ha).2
  have hbe : b.1.1 = e := of_decide_eq_true (List.mem_filter.1 hb).2
  rcases hr.1 with hlt | ⟨heq, hle⟩
  · rw [hae, hbe] at hlt
    exact absurd hlt (lt_irrefl e)
  · rcases lt_or_eq_of_le hle with h | h
    · exact h
    · exact absurd (Prod.ext heq h) hr.2

theorem filterMap_map_key {α β : Type} (f : α → Option β) (k : β → α) :
    ∀ (l : List α), (∀ a ∈ l, ∃ b, f a = some b ∧ k b = a) →
    (l.filterMap f).map k = l
  | [], _ => rfl
  | a :: l, h => by
    obtain ⟨b, hb, hk⟩ := h a (List.mem_cons_self a l)
    rw [List.filterMap_cons_some hb]
    simp only [List.map_cons, hk]
    rw [filterMap_map_key f k l fun x hx => h x (List.mem_cons_of_mem a hx)]

theorem bestRows_spec (out : List RRecord) (e : String)
    (he : e ∈ estNames out) :
    ∃ x, firstMax ((cv_results out).filter fun r => r.1.1 = e) = some x ∧
      x.1.1 = e := by
  rw [estNames_mem] at he
  obtain ⟨r, hr, hre⟩ := List.mem_map.1 he
  have hk : (e, r.draw) ∈ groupKeys out := by
    rw [groupKeys_mem]
    rw [← hre]
    exact List.mem_map_of_mem _ hr
  have hrow : ((e, r.draw), aggOf (groupOf out (e, r.draw))) ∈
      cv_results out := by
    unfold cv_results
    exact List.mem_map_of_mem _ hk
  have hfil : ((e, r.draw), aggOf (groupOf out (e, r.draw))) ∈
      (cv_results out).filter fun rr => rr.1.1 = e :=
    List.mem_filter.2 ⟨hrow, by simp⟩
  obtain ⟨x, hx⟩ := firstMax_isSome _ (List.ne_nil_of_mem hfil)
  refine ⟨x, hx, ?_⟩
  have := firstMax_mem _ x hx
  exact of_decide_eq_true (List.mem_filter.1 this).2



/-- C2: for every result-record set, the `summary_` table of `_results`
contains, per estimator-case group, exactly the aggregate row (mean and std
of test score, train score and fit time) of the parameter draw whose mean
test score is maximal — first conjunct: the summary keys are exactly the
distinct estimator-case keys of the records; second conjunct: each summary
row is the aggregate of a draw of its group whose mean test score is maximal
and, among maximisers, of lowest draw index (the first-maximum semantics of
`np.argmax`/`idxmax` over the draw-sorted group); third conjunct: the rows
are sorted by mean test score in descending order. -/
theorem results_summary_C2 (out : List RRecord) :
    ((summaryOf out).map Prod.fst).Perm (estNames out) ∧
    (∀ p ∈ summaryOf out, ∃ d,
      ((p.1, d) ∈ out.map fun r => (r.est, r.draw)) ∧
      p.2 = aggOf (groupOf out (p.1, d)) ∧
      (∀ d2, ((p.1, d2) ∈ out.map fun r => (r.est, r.draw)) →
        (aggOf (groupOf out (p.1, d2))).test_mean ≤
          (aggOf (groupOf out (p.1, d))).test_mean) ∧
      (∀ d2, ((p.1, d2) ∈ out.map fun r => (r.est, r.draw)) →
        (aggOf (groupOf out (p.1, d2))).test_mean =
          (aggOf (groupOf out (p.1, d))).test_mean → d ≤ d2)) ∧
    (summaryOf out).Sorted descTM := by
  refine ⟨?_, ?_, List.sorted_insertionSort descTM _⟩
  · have h1 : ((summaryOf out).map Prod.fst).Perm
        (((bestRows out).map fun r => (r.1.1, r.2)).map Prod.fst) :=
      (List.perm_insertionSort descTM _).map Prod.fst
    rw [List.map_map] at h1
    have h2 : ((bestRows out).map fun r => r.1.1) = estNames out := by
      unfold bestRows
      exact filterMap_map_key _ _ _ fun e he => bestRows_spec out e he
    exact h2 ▸ h1
  · intro p hp
    have hmem : p ∈ (bestRows out).map fun r => (r.1.1, r.2) :=
      ((List.perm_insertionSort descTM _).mem_iff).1 hp
    obtain ⟨x, hxb, hpx⟩ := List.mem_map.1 hmem
    subst hpx
    obtain ⟨e, he, hfm⟩ := List.mem_filterMap.1 hxb
    have hxf := firstMax_mem _ x hfm
    have hxcv : x ∈ cv_results out := (List.mem_filter.1 hxf).1
    have hxe : x.1.1 = e := of_decide_eq_true (List.mem_filter.1 hxf).2
    obtain ⟨k, hk, hkx⟩ := List.mem_map.1 hxcv
    have hk1 : k = x.1 := congrArg Prod.fst hkx
    have hx2 : x.2 = aggOf (groupOf out x.1) := by
      have := congrArg Prod.snd hkx
      simp only at this
      rw [← this, hk1]
    refine ⟨x.1.2, ?_, ?_, ?_, ?_⟩
    · have := (groupKeys_mem out k).1 hk
      rw [hk1] at this
      exact this
    · exact hx2
    · intro d2 hd2
      have hrow2 : ((x.1.1, d2), aggOf (groupOf out (x.1.1, d2))) ∈
          cv_results out :=
        List.mem_map_of_mem _ ((groupKeys_mem out _).2 hd2)
      have hfil2 : ((x.1.1, d2), aggOf (groupOf out (x.1.1, d2))) ∈
          (cv_results out).filter fun r => r.1.1 = e :=
        List.mem_filter.2 ⟨hrow2, by simp [hxe]⟩
      have hle := firstMax_le _ x hfm _ hfil2
      rw [hx2] at hle
      exact hle
    · intro d2 hd2 htie
      have hrow2 : ((x.1.1, d2), aggOf (groupOf out (x.1.1, d2))) ∈
          cv_results out :=
        List.mem_map_of_mem _ ((groupKeys_mem out _).2 hd2)
      have hfil2 : ((x.1.1, d2), aggOf (groupOf out (x.1.1, d2))) ∈
          (cv_results out).filter fun r => r.1.1 = e :=
        List.mem_filter.2 ⟨hrow2, by simp [hxe]⟩
      have hfirst := firstMax_first _ x (filter_rows_pairwise out e) hfm _
        hfil2 (by rw [← hx2] at htie; exact htie)
      exact hfirst


end MLens
